import Mathlib

/-!
# Verification of the kitty library core

Shallow embedding of the concurrent library-ingestion and metadata engine of
the `kitty` repository (Go): the track data model (`backend/metadata`), the
merge policy, the sidecar cache, the library index (`backend/library`) and the
persisted path list (`backend/storage`).  File-system and OS interactions are
modelled explicitly (association-list stores, environment records carrying the
results of OS calls such as `os.Open`, `filepath.Base`, `os.UserConfigDir`).
Byte payloads (cover images) are modelled by their transport text plus length;
JSON (de)serialisation of records — an external library boundary
(`encoding/json`) — is modelled at the parsed-value level.
-/

namespace Kitty

/-- `TrackMetadata` from `backend/metadata/metadata.go` (struct `TrackMetadata`).
Go `int` fields are modelled as `Int` (only `> 0` comparisons occur), `string`
as `String`, `bool` as `Bool`. -/
@[ext]
structure TrackMetadata where
  FilePath : String
  FileName : String
  Title : String
  Artist : String
  Album : String
  AlbumArtist : String
  TrackNumber : Int
  DiscNumber : Int
  Genre : String
  Year : Int
  Comment : String
  Composer : String
  Lyrics : String
  HasCover : Bool
  CoverImage : String
  Format : String
  Bitrate : Int
  SampleRate : Int
deriving DecidableEq, Repr

/-! ## Association-list maps

Go `map[string]V` values are modelled as association lists with
overwrite-on-insert semantics.  `alInsert` replaces the value in place when the
key is present (keeping key order stable) and appends otherwise. -/

/-- Lookup in an association list (first matching key wins). -/
def alLookup {α : Type} (k : String) : List (String × α) → Option α
  | [] => none
  | (k', v) :: rest => if k' = k then some v else alLookup k rest

/-- The key list of an association list. -/
def alKeys {α : Type} (l : List (String × α)) : List String :=
  l.map Prod.fst

/-- Overwrite the value of every entry whose key is `k`, in place. -/
def alReplace {α : Type} (k : String) (v : α) (l : List (String × α)) :
    List (String × α) :=
  l.map (fun kv => if kv.1 = k then (kv.1, v) else kv)

/-- Map-style insert: overwrite in place if the key exists, append otherwise. -/
def alInsert {α : Type} (k : String) (v : α) (l : List (String × α)) :
    List (String × α) :=
  if k ∈ alKeys l then alReplace k v l else l ++ [(k, v)]

/-- Remove every entry with the given key. -/
def alErase {α : Type} (k : String) (l : List (String × α)) :
    List (String × α) :=
  l.filter (fun kv => kv.1 ≠ k)

theorem alLookup_nil {α : Type} (k : String) :
    alLookup k ([] : List (String × α)) = none := rfl

theorem alLookup_cons {α : Type} (k : String) (kv : String × α)
    (l : List (String × α)) :
    alLookup k (kv :: l) = if kv.1 = k then some kv.2 else alLookup k l := rfl

theorem alLookup_isSome_iff_mem_keys {α : Type} (k : String)
    (l : List (String × α)) : (alLookup k l).isSome ↔ k ∈ alKeys l := by
  induction l with
  | nil => simp [alLookup, alKeys]
  | cons kv rest ih =>
    rw [alLookup_cons]
    by_cases h : kv.1 = k
    · simp [alKeys, h]
    · rw [if_neg h]
      simp only [alKeys, List.map_cons, List.mem_cons]
      rw [ih]
      constructor
      · exact fun h' => Or.inr h'
      · rintro (h' | h')
        · exact absurd h'.symm h
        · exact h'

theorem alLookup_eq_none_iff_not_mem_keys {α : Type} (k : String)
    (l : List (String × α)) : alLookup k l = none ↔ k ∉ alKeys l := by
  rw [← alLookup_isSome_iff_mem_keys]
  cases alLookup k l <;> simp

theorem alKeys_replace {α : Type} (k : String) (v : α)
    (l : List (String × α)) : alKeys (alReplace k v l) = alKeys l := by
  simp only [alReplace, alKeys, List.map_map]
  apply List.map_congr_left
  intro kv _
  by_cases hk : kv.1 = k <;> simp [hk]

theorem alLookup_replace_self {α : Type} (k : String) (v : α)
    (l : List (String × α)) (h : k ∈ alKeys l) :
    alLookup k (alReplace k v l) = some v := by
  induction l with
  | nil => simp [alKeys] at h
  | cons kv rest ih =>
    simp only [alReplace, List.map_cons]
    by_cases hk : kv.1 = k
    · rw [if_pos hk, alLookup_cons, if_pos hk]
    · rw [if_neg hk, alLookup_cons, if_neg hk]
      have hmem : k ∈ alKeys rest := by
        rcases (by simpa [alKeys] using h) with h' | h'
        · exact absurd h'.symm hk
        · simpa [alKeys] using h'
      exact ih hmem

theorem alLookup_replace_ne {α : Type} {k q : String} (hne : q ≠ k) (v : α)
    (l : List (String × α)) :
    alLookup q (alReplace k v l) = alLookup q l := by
  induction l with
  | nil => rfl
  | cons kv rest ih =>
    simp only [alReplace, List.map_cons]
    by_cases hk : kv.1 = k
    · have hq : kv.1 ≠ q := fun h => hne ((h ▸ hk : q = k))
      rw [if_pos hk, alLookup_cons, alLookup_cons, if_neg hq, if_neg hq]
      exact ih
    · rw [if_neg hk, alLookup_cons, alLookup_cons]
      by_cases hq : kv.1 = q
      · rw [if_pos hq, if_pos hq]
      · rw [if_neg hq, if_neg hq]
        exact ih

theorem alLookup_append {α : Type} (k : String) (l₁ l₂ : List (String × α)) :
    alLookup k (l₁ ++ l₂) =
      match alLookup k l₁ with
      | some v => some v
      | none => alLookup k l₂ := by
  induction l₁ with
  | nil => simp [alLookup]
  | cons kv rest ih =>
    rw [List.cons_append, alLookup_cons, alLookup_cons]
    by_cases hk : kv.1 = k
    · rw [if_pos hk, if_pos hk]
    · rw [if_neg hk, if_neg hk, ih]

theorem alKeys_insert_of_mem {α : Type} {k : String} {l : List (String × α)}
    (h : k ∈ alKeys l) (v : α) : alKeys (alInsert k v l) = alKeys l := by
  rw [alInsert, if_pos h, alKeys_replace]

theorem alKeys_insert_of_not_mem {α : Type} {k : String}
    {l : List (String × α)} (h : k ∉ alKeys l) (v : α) :
    alKeys (alInsert k v l) = alKeys l ++ [k] := by
  rw [alInsert, if_neg h]
  simp [alKeys]

theorem mem_alKeys_insert {α : Type} (k q : String) (v : α)
    (l : List (String × α)) :
    q ∈ alKeys (alInsert k v l) ↔ q ∈ alKeys l ∨ q = k := by
  by_cases h : k ∈ alKeys l
  · rw [alKeys_insert_of_mem h]
    constructor
    · exact Or.inl
    · rintro (hq | rfl) <;> [exact hq; exact h]
  · rw [alKeys_insert_of_not_mem h]
    simp

theorem alLookup_insert_self {α : Type} (k : String) (v : α)
    (l : List (String × α)) : alLookup k (alInsert k v l) = some v := by
  by_cases h : k ∈ alKeys l
  · rw [alInsert, if_pos h, alLookup_replace_self _ _ _ h]
  · rw [alInsert, if_neg h, alLookup_append,
      (alLookup_eq_none_iff_not_mem_keys k l).mpr h]
    simp [alLookup]

theorem alLookup_insert_ne {α : Type} {k q : String} (hne : q ≠ k) (v : α)
    (l : List (String × α)) : alLookup q (alInsert k v l) = alLookup q l := by
  by_cases h : k ∈ alKeys l
  · rw [alInsert, if_pos h, alLookup_replace_ne hne]
  · rw [alInsert, if_neg h, alLookup_append]
    have : alLookup q [(k, v)] = none := by
      rw [alLookup_cons, if_neg (fun h' : k = q => hne h'.symm)]
      rfl
    rw [this]
    cases alLookup q l <;> rfl

theorem alLookup_erase_ne {α : Type} {k q : String} (hne : q ≠ k)
    (l : List (String × α)) : alLookup q (alErase k l) = alLookup q l := by
  induction l with
  | nil => rfl
  | cons kv rest ih =>
    simp only [alErase, List.filter_cons]
    by_cases hk : kv.1 = k
    · have hq : kv.1 ≠ q := fun h => hne (h ▸ hk)
      rw [show (decide ¬kv.1 = k) = false by simpa using hk]
      rw [alLookup_cons, if_neg hq]
      simpa [alErase] using ih
    · rw [show (decide ¬kv.1 = k) = true by simpa using hk, if_pos rfl]
      rw [alLookup_cons, alLookup_cons]
      by_cases hq : kv.1 = q
      · rw [if_pos hq, if_pos hq]
      · rw [if_neg hq, if_neg hq]
        simpa [alErase] using ih

/-! ## Metadata merge policy (`mergeMetadata`, metadata.go lines 330–381)

Each Go `if` statement guards the assignment of exactly one field (the cover
branch assigns the pair `CoverImage`/`HasCover`); the sequential updates are
modelled as a `let` chain in the same order as the source. -/

/-- The white-space set of Go's `unicode.IsSpace` restricted to the Latin-1
range (space, tab, newline, vertical tab, form feed, carriage return, NEL,
NBSP). -/
def isSpaceChar (c : Char) : Bool :=
  c == ' ' || c == '\t' || c == '\n' || c == '\u000b' || c == '\u000c' ||
  c == '\r' || c == '\u0085' || c == '\u00a0'

/-- Go `strings.TrimSpace`, modelled structurally over the character list (so
that it evaluates by kernel reduction; Lean's own `String.trim` does not). -/
def trimSpace (s : String) : String :=
  String.mk (((s.data.dropWhile isSpaceChar).reverse.dropWhile isSpaceChar).reverse)

/-- `strings.TrimSpace(s) != ""` as used throughout the source. -/
def notBlank (s : String) : Bool :=
  trimSpace s ≠ ""

/-- One guarded assignment `if cond { result.F = v }` of the Go source:
apply the update when the condition holds, keep the record otherwise. -/
def guardUpd (c : Bool) (f : TrackMetadata → TrackMetadata)
    (r : TrackMetadata) : TrackMetadata :=
  if c then f r else r

/-- `mergeMetadata` from metadata.go: field-wise merge of an override record
onto a base record.  Each `guardUpd` line is one `if` statement of the source,
in source order. -/
def mergeMetadata (base override : TrackMetadata) : TrackMetadata :=
  base
  |> guardUpd (notBlank override.Title) (fun r => { r with Title := override.Title })
  |> guardUpd (notBlank override.Artist) (fun r => { r with Artist := override.Artist })
  |> guardUpd (notBlank override.Album) (fun r => { r with Album := override.Album })
  |> guardUpd (notBlank override.AlbumArtist) (fun r => { r with AlbumArtist := override.AlbumArtist })
  |> guardUpd (notBlank override.Genre) (fun r => { r with Genre := override.Genre })
  |> guardUpd (notBlank override.Comment) (fun r => { r with Comment := override.Comment })
  |> guardUpd (notBlank override.Composer) (fun r => { r with Composer := override.Composer })
  |> guardUpd (notBlank override.Lyrics) (fun r => { r with Lyrics := override.Lyrics })
  |> guardUpd (decide (override.TrackNumber > 0)) (fun r => { r with TrackNumber := override.TrackNumber })
  |> guardUpd (decide (override.DiscNumber > 0)) (fun r => { r with DiscNumber := override.DiscNumber })
  |> guardUpd (decide (override.Year > 0)) (fun r => { r with Year := override.Year })
  |> guardUpd (override.HasCover && notBlank override.CoverImage)
      (fun r => { r with CoverImage := override.CoverImage, HasCover := true })
  |> guardUpd (notBlank override.Format) (fun r => { r with Format := override.Format })
  |> guardUpd (decide (override.Bitrate > 0)) (fun r => { r with Bitrate := override.Bitrate })
  |> guardUpd (decide (override.SampleRate > 0)) (fun r => { r with SampleRate := override.SampleRate })

/-- A zero/empty record used to build concrete inputs. -/
def blankTrack : TrackMetadata where
  FilePath := ""
  FileName := ""
  Title := ""
  Artist := ""
  Album := ""
  AlbumArtist := ""
  TrackNumber := 0
  DiscNumber := 0
  Genre := ""
  Year := 0
  Comment := ""
  Composer := ""
  Lyrics := ""
  HasCover := false
  CoverImage := ""
  Format := ""
  Bitrate := 0
  SampleRate := 0

/-! ### Effect of a single guarded assignment, field by field -/

theorem guardUpd_Title (c : Bool) (v : String) (r : TrackMetadata) :
    guardUpd c (fun r => { r with Title := v }) r =
      { r with Title := if c then v else r.Title } := by
  cases c <;> rfl

theorem guardUpd_Artist (c : Bool) (v : String) (r : TrackMetadata) :
    guardUpd c (fun r => { r with Artist := v }) r =
      { r with Artist := if c then v else r.Artist } := by
  cases c <;> rfl

theorem guardUpd_Album (c : Bool) (v : String) (r : TrackMetadata) :
    guardUpd c (fun r => { r with Album := v }) r =
      { r with Album := if c then v else r.Album } := by
  cases c <;> rfl

theorem guardUpd_AlbumArtist (c : Bool) (v : String) (r : TrackMetadata) :
    guardUpd c (fun r => { r with AlbumArtist := v }) r =
      { r with AlbumArtist := if c then v else r.AlbumArtist } := by
  cases c <;> rfl

theorem guardUpd_Genre (c : Bool) (v : String) (r : TrackMetadata) :
    guardUpd c (fun r => { r with Genre := v }) r =
      { r with Genre := if c then v else r.Genre } := by
  cases c <;> rfl

theorem guardUpd_Comment (c : Bool) (v : String) (r : TrackMetadata) :
    guardUpd c (fun r => { r with Comment := v }) r =
      { r with Comment := if c then v else r.Comment } := by
  cases c <;> rfl

theorem guardUpd_Composer (c : Bool) (v : String) (r : TrackMetadata) :
    guardUpd c (fun r => { r with Composer := v }) r =
      { r with Composer := if c then v else r.Composer } := by
  cases c <;> rfl

theorem guardUpd_Lyrics (c : Bool) (v : String) (r : TrackMetadata) :
    guardUpd c (fun r => { r with Lyrics := v }) r =
      { r with Lyrics := if c then v else r.Lyrics } := by
  cases c <;> rfl

theorem guardUpd_TrackNumber (c : Bool) (v : Int) (r : TrackMetadata) :
    guardUpd c (fun r => { r with TrackNumber := v }) r =
      { r with TrackNumber := if c then v else r.TrackNumber } := by
  cases c <;> rfl

theorem guardUpd_DiscNumber (c : Bool) (v : Int) (r : TrackMetadata) :
    guardUpd c (fun r => { r with DiscNumber := v }) r =
      { r with DiscNumber := if c then v else r.DiscNumber } := by
  cases c <;> rfl

theorem guardUpd_Year (c : Bool) (v : Int) (r : TrackMetadata) :
    guardUpd c (fun r => { r with Year := v }) r =
      { r with Year := if c then v else r.Year } := by
  cases c <;> rfl

theorem guardUpd_Cover (c : Bool) (v : String) (r : TrackMetadata) :
    guardUpd c (fun r => { r with CoverImage := v, HasCover := true }) r =
      { r with CoverImage := if c then v else r.CoverImage,
               HasCover := if c then true else r.HasCover } := by
  cases c <;> rfl

theorem guardUpd_Format (c : Bool) (v : String) (r : TrackMetadata) :
    guardUpd c (fun r => { r with Format := v }) r =
      { r with Format := if c then v else r.Format } := by
  cases c <;> rfl

theorem guardUpd_Bitrate (c : Bool) (v : Int) (r : TrackMetadata) :
    guardUpd c (fun r => { r with Bitrate := v }) r =
      { r with Bitrate := if c then v else r.Bitrate } := by
  cases c <;> rfl

theorem guardUpd_SampleRate (c : Bool) (v : Int) (r : TrackMetadata) :
    guardUpd c (fun r => { r with SampleRate := v }) r =
      { r with SampleRate := if c then v else r.SampleRate } := by
  cases c <;> rfl

/-- C3 counterexample: on the claim's reading, any *non-empty* overlay string
field replaces the base field.  The overlay title `" "` is non-empty, yet
`mergeMetadata` keeps the base title `"X"` (the source tests
`strings.TrimSpace(field) != ""`, not `field != ""`), so the claimed
replacement condition is false at this input. -/
theorem mergeMetadata_whitespace_cex :
    ({ blankTrack with Title := " " } : TrackMetadata).Title ≠ "" ∧
    (mergeMetadata { blankTrack with Title := "X" }
        { blankTrack with Title := " " }).Title = "X" ∧
    ("X" : String) ≠ " " := by
  decide

/-- C3 (amended): `mergeMetadata` replaces a base field with the overlay's
value exactly when the overlay's string field is non-blank (non-empty after
trimming white space) or the overlay's numeric field is strictly positive,
leaving the base value intact otherwise; the cover image is replaced (and
has-cover set) exactly when the overlay marks has-cover true and supplies a
non-blank image; file path and file name always come from the base record. -/
theorem mergeMetadata_fieldwise (base override : TrackMetadata) :
    mergeMetadata base override =
      { FilePath := base.FilePath
        FileName := base.FileName
        Title := if notBlank override.Title then override.Title else base.Title
        Artist := if notBlank override.Artist then override.Artist else base.Artist
        Album := if notBlank override.Album then override.Album else base.Album
        AlbumArtist := if notBlank override.AlbumArtist then override.AlbumArtist else base.AlbumArtist
        TrackNumber := if override.TrackNumber > 0 then override.TrackNumber else base.TrackNumber
        DiscNumber := if override.DiscNumber > 0 then override.DiscNumber else base.DiscNumber
        Genre := if notBlank override.Genre then override.Genre else base.Genre
        Year := if override.Year > 0 then override.Year else base.Year
        Comment := if notBlank override.Comment then override.Comment else base.Comment
        Composer := if notBlank override.Composer then override.Composer else base.Composer
        Lyrics := if notBlank override.Lyrics then override.Lyrics else base.Lyrics
        HasCover := if override.HasCover && notBlank override.CoverImage then true else base.HasCover
        CoverImage := if override.HasCover && notBlank override.CoverImage then override.CoverImage else base.CoverImage
        Format := if notBlank override.Format then override.Format else base.Format
        Bitrate := if override.Bitrate > 0 then override.Bitrate else base.Bitrate
        SampleRate := if override.SampleRate > 0 then override.SampleRate else base.SampleRate } := by
  simp only [mergeMetadata, guardUpd_Title, guardUpd_Artist, guardUpd_Album,
    guardUpd_AlbumArtist, guardUpd_Genre, guardUpd_Comment, guardUpd_Composer,
    guardUpd_Lyrics, guardUpd_TrackNumber, guardUpd_DiscNumber, guardUpd_Year,
    guardUpd_Cover, guardUpd_Format, guardUpd_Bitrate, guardUpd_SampleRate,
    decide_eq_true_eq]

/-! ## Library index (`backend/library/library.go`)

The `Manager` holds the map of tracks and the insertion-order path sequence.
The batch pipeline's worker pool is modelled by an explicit `arrival` list:
the stream of per-path results in channel-arrival order.  Theorems relate
`arrival` to a per-path result function `load` (the outcome of
`metadata.LoadMetadata` for that path) through a permutation hypothesis,
capturing the non-deterministic completion order.  `storage.SaveLibrary`'s
outcome is the `saveErr` parameter.  `loadAndMerge` always returns `none` as
its top-level Go `error`, as in the source. -/

/-- Outcome of a single `metadata.LoadMetadata` call: the Go pair
`(*TrackMetadata, error)`. -/
inductive LoadResult where
  | ok (track : TrackMetadata)
  | err (msg : String)
deriving DecidableEq, Repr

/-- The track of a successful result. -/
def okOf : LoadResult → Option TrackMetadata
  | .ok t => some t
  | .err _ => none

@[simp]
theorem okOf_ok (t : TrackMetadata) : okOf (.ok t) = some t := rfl

@[simp]
theorem okOf_err (e : String) : okOf (.err e) = none := rfl

/-- `BatchResult` from library.go. -/
structure BatchResult where
  Tracks : List TrackMetadata
  Errors : List String
deriving DecidableEq, Repr

/-- `Manager` from library.go: the authoritative map plus insertion order.
The `sync.Mutex` has no sequential content and is not modelled. -/
structure Manager where
  tracks : List (String × TrackMetadata)
  order : List String
deriving DecidableEq, Repr

/-- `NewManager` from library.go. -/
def NewManager : Manager :=
  { tracks := [], order := [] }

/-- `snapshotLocked` from library.go: records in insertion order, skipping
order entries without a map entry. -/
def snapshotLocked (m : Manager) : List TrackMetadata :=
  m.order.filterMap (fun path => alLookup path m.tracks)

/-- `snapshot` from library.go (lock elided). -/
def snapshot (m : Manager) : List TrackMetadata :=
  snapshotLocked m

/-- `hasPath` from library.go. -/
def hasPath (m : Manager) (path : String) : Bool :=
  m.order.contains path

/-- The loop body of `filterNew`, with the `seen` set accumulated so far. -/
def filterNewAux (tracks : List (String × TrackMetadata)) (seen : List String) :
    List String → List String
  | [] => []
  | p :: rest =>
    if p ∈ seen then filterNewAux tracks seen rest
    else if (alLookup p tracks).isSome then filterNewAux tracks (p :: seen) rest
    else p :: filterNewAux tracks (p :: seen) rest

/-- `filterNew` from library.go: drop paths already indexed and in-batch
duplicates, keeping first-occurrence order. -/
def filterNew (m : Manager) (paths : List String) : List String :=
  filterNewAux m.tracks [] paths

/-- The error-collection arm of the result loop of `loadAndMerge` (lines
112–118): each failed result contributes `fmt.Sprintf("%s: %v", path, err)`
in arrival order. -/
def errsOf (arrival : List (String × LoadResult)) : List String :=
  arrival.filterMap (fun r =>
    match r.2 with
    | .err e => some (r.1 ++ ": " ++ e)
    | .ok _ => none)

/-- `loadedByPath` of library.go (lines 120–123): a map from file path to
track, built by Go-map assignment (later entries win). -/
def buildByPath (ts : List TrackMetadata) : List (String × TrackMetadata) :=
  ts.foldl (fun acc t => alInsert t.FilePath t acc) []

/-- The body of the merge loop of `loadAndMerge` (lines 133–138): append the
path to the order sequence when it is not yet a map key, then store the
track. -/
def mergeStep (st : Manager) (t : TrackMetadata) : Manager :=
  { tracks := alInsert t.FilePath t st.tracks
    order := if (alLookup t.FilePath st.tracks).isSome then st.order
             else st.order ++ [t.FilePath] }

/-- The whole merge loop of `loadAndMerge` over the ordered new tracks. -/
def mergeFold (m : Manager) (ts : List TrackMetadata) : Manager :=
  ts.foldl mergeStep m

/-- `loadAndMerge` from library.go.  `arrival` is the result stream in
channel-arrival order; `saveErr` the outcome of `storage.SaveLibrary`.
Worker-pool sizing (lines 70–73) has no observable effect and is omitted. -/
def loadAndMerge (m : Manager) (paths : List String)
    (arrival : List (String × LoadResult)) (persist : Bool)
    (saveErr : Option String) : Manager × BatchResult × Option String :=
  let unique := filterNew m paths
  if unique.isEmpty then
    (m, { Tracks := snapshot m, Errors := [] }, none)
  else
    let newTracks := arrival.filterMap (fun r => okOf r.2)
    let errs := errsOf arrival
    let loadedByPath := buildByPath newTracks
    let orderedNewTracks := unique.filterMap (fun p => alLookup p loadedByPath)
    if orderedNewTracks.isEmpty then
      (m, { Tracks := snapshot m, Errors := errs }, none)
    else
      let m' := mergeFold m orderedNewTracks
      let errs := if persist then
          match saveErr with
          | some e => errs ++ ["save library failed: " ++ e]
          | none => errs
        else errs
      (m', { Tracks := snapshot m', Errors := errs }, none)

/-- `AddFiles` from library.go: ingest with persistence. -/
def AddFiles (m : Manager) (paths : List String)
    (arrival : List (String × LoadResult)) (saveErr : Option String) :
    Manager × BatchResult × Option String :=
  loadAndMerge m paths arrival true saveErr

/-- `ApplyMetadata` from library.go: insert the overlay when the path is
unknown, otherwise update the existing record field-wise (note: conditions are
plain `!= ""` without trimming, the cover branch ignores `overlay.HasCover`,
and `Format`/`Bitrate`/`SampleRate` are never touched). -/
def ApplyMetadata (m : Manager) (path : String) (overlay : TrackMetadata) :
    Manager × TrackMetadata :=
  match alLookup path m.tracks with
  | none =>
    ({ tracks := alInsert path overlay m.tracks, order := m.order ++ [path] },
      overlay)
  | some existing₀ =>
    let existing := existing₀
      |> guardUpd (overlay.Title != "") (fun r => { r with Title := overlay.Title })
      |> guardUpd (overlay.Artist != "") (fun r => { r with Artist := overlay.Artist })
      |> guardUpd (overlay.Album != "") (fun r => { r with Album := overlay.Album })
      |> guardUpd (overlay.AlbumArtist != "") (fun r => { r with AlbumArtist := overlay.AlbumArtist })
      |> guardUpd (overlay.Genre != "") (fun r => { r with Genre := overlay.Genre })
      |> guardUpd (overlay.Comment != "") (fun r => { r with Comment := overlay.Comment })
      |> guardUpd (overlay.Composer != "") (fun r => { r with Composer := overlay.Composer })
      |> guardUpd (overlay.Lyrics != "") (fun r => { r with Lyrics := overlay.Lyrics })
      |> guardUpd (overlay.CoverImage != "") (fun r => { r with CoverImage := overlay.CoverImage, HasCover := true })
      |> guardUpd (decide (overlay.TrackNumber > 0)) (fun r => { r with TrackNumber := overlay.TrackNumber })
      |> guardUpd (decide (overlay.DiscNumber > 0)) (fun r => { r with DiscNumber := overlay.DiscNumber })
      |> guardUpd (decide (overlay.Year > 0)) (fun r => { r with Year := overlay.Year })
    ({ m with tracks := alInsert path existing m.tracks }, existing)

/-- `UpdateAndReload` from library.go: on successful save and reload, store
the refreshed record and append its path to the order sequence when absent.
`saveErr` models `metadata.SaveMetadata`'s outcome; `loadRes` models
`metadata.LoadMetadata`'s outcome on the saved path. -/
def UpdateAndReload (m : Manager) (saveErr : Option String)
    (loadRes : LoadResult) : Manager × LoadResult :=
  match saveErr with
  | some e => (m, .err e)
  | none =>
    match loadRes with
    | .err e => (m, .err e)
    | .ok refreshed =>
      let tracks := alInsert refreshed.FilePath refreshed m.tracks
      let order := if hasPath m refreshed.FilePath then m.order
                   else m.order ++ [refreshed.FilePath]
      ({ tracks := tracks, order := order }, .ok refreshed)

/-- The index invariant (spec §3): the order sequence and the map keys hold
the same paths, and the order sequence has no duplicates. -/
def Inv (m : Manager) : Prop :=
  m.order.Nodup ∧ (∀ p ∈ m.order, p ∈ alKeys m.tracks) ∧
    (∀ p ∈ alKeys m.tracks, p ∈ m.order)

/-! ### Properties of `filterNew` -/

theorem mem_filterNewAux (tracks : List (String × TrackMetadata)) (q : String) :
    ∀ (l : List String) (seen : List String),
      q ∈ filterNewAux tracks seen l ↔
        q ∈ l ∧ q ∉ seen ∧ alLookup q tracks = none := by
  intro l
  induction l with
  | nil => intro seen; simp [filterNewAux]
  | cons p rest ih =>
    intro seen
    rw [filterNewAux]
    by_cases hseen : p ∈ seen
    · rw [if_pos hseen, ih]
      constructor
      · rintro ⟨h1, h2, h3⟩
        exact ⟨List.mem_cons_of_mem _ h1, h2, h3⟩
      · rintro ⟨h1, h2, h3⟩
        rcases List.mem_cons.mp h1 with rfl | h1
        · exact absurd hseen h2
        · exact ⟨h1, h2, h3⟩
    · rw [if_neg hseen]
      by_cases hsome : (alLookup p tracks).isSome
      · rw [if_pos hsome, ih]
        constructor
        · rintro ⟨h1, h2, h3⟩
          refine ⟨List.mem_cons_of_mem _ h1, fun hq => h2 (List.mem_cons_of_mem _ hq), h3⟩
        · rintro ⟨h1, h2, h3⟩
          rcases List.mem_cons.mp h1 with rfl | h1
          · rw [h3] at hsome
            exact absurd hsome (by simp)
          · refine ⟨h1, fun hq => ?_, h3⟩
            rcases List.mem_cons.mp hq with rfl | hq
            · rw [h3] at hsome
              exact absurd hsome (by simp)
            · exact h2 hq
      · rw [if_neg hsome, List.mem_cons, ih]
        constructor
        · rintro (rfl | ⟨h1, h2, h3⟩)
          · refine ⟨List.mem_cons_self _ _, hseen, ?_⟩
            cases h : alLookup q tracks with
            | none => rfl
            | some v => rw [h] at hsome; exact absurd rfl hsome
          · exact ⟨List.mem_cons_of_mem _ h1, fun hq => h2 (List.mem_cons_of_mem _ hq), h3⟩
        · rintro ⟨h1, h2, h3⟩
          rcases List.mem_cons.mp h1 with rfl | h1
          · exact Or.inl rfl
          · by_cases hqp : q = p
            · exact Or.inl hqp
            · exact Or.inr ⟨h1, fun hq => by
                rcases List.mem_cons.mp hq with h' | h'
                · exact hqp h'
                · exact h2 h', h3⟩

theorem filterNewAux_nodup (tracks : List (String × TrackMetadata)) :
    ∀ (l : List String) (seen : List String),
      (filterNewAux tracks seen l).Nodup := by
  intro l
  induction l with
  | nil => intro seen; simp [filterNewAux]
  | cons p rest ih =>
    intro seen
    rw [filterNewAux]
    by_cases hseen : p ∈ seen
    · rw [if_pos hseen]; exact ih seen
    · rw [if_neg hseen]
      by_cases hsome : (alLookup p tracks).isSome
      · rw [if_pos hsome]; exact ih _
      · rw [if_neg hsome]
        refine List.nodup_cons.mpr ⟨fun hmem => ?_, ih _⟩
        have := (mem_filterNewAux tracks p rest (p :: seen)).mp hmem
        exact this.2.1 (List.mem_cons_self _ _)

theorem mem_filterNew (m : Manager) (paths : List String) (q : String) :
    q ∈ filterNew m paths ↔ q ∈ paths ∧ alLookup q m.tracks = none := by
  rw [filterNew, mem_filterNewAux]
  simp

theorem filterNew_nodup (m : Manager) (paths : List String) :
    (filterNew m paths).Nodup :=
  filterNewAux_nodup m.tracks paths []

theorem filterNew_eq_nil (m : Manager) (paths : List String)
    (h : ∀ p ∈ paths, (alLookup p m.tracks).isSome) :
    filterNew m paths = [] := by
  rw [List.eq_nil_iff_forall_not_mem]
  intro q hq
  have h' := (mem_filterNew m paths q).mp hq
  have := h q h'.1
  rw [h'.2] at this
  simp at this

/-! ### Keyed `find?` and the `loadedByPath` map -/

theorem find?_key_of_mem {ts : List TrackMetadata} {t : TrackMetadata}
    (hnd : (ts.map (fun u => u.FilePath)).Nodup) (hmem : t ∈ ts) :
    ts.find? (fun u => u.FilePath == t.FilePath) = some t := by
  induction ts with
  | nil => cases hmem
  | cons u rest ih =>
    rcases List.mem_cons.mp hmem with rfl | hmem'
    · rw [List.find?_cons_of_pos _ (by simp)]
    · have hne : u.FilePath ≠ t.FilePath := by
        intro he
        have : t.FilePath ∈ rest.map (fun u => u.FilePath) :=
          List.mem_map_of_mem _ hmem'
        rw [← he] at this
        exact (List.nodup_cons.mp hnd).1 this
      rw [List.find?_cons_of_neg _ (by simpa using hne)]
      exact ih (List.nodup_cons.mp hnd).2 hmem'

theorem find?_key_of_not_mem {ts : List TrackMetadata} {k : String}
    (h : k ∉ ts.map (fun u => u.FilePath)) :
    ts.find? (fun u => u.FilePath == k) = none := by
  rw [List.find?_eq_none]
  intro t hmem hbeq
  exact h (by
    have : t.FilePath = k := by simpa using hbeq
    exact this ▸ List.mem_map_of_mem _ hmem)

theorem alLookup_foldl_insert (k : String) :
    ∀ (ts : List TrackMetadata) (acc : List (String × TrackMetadata)),
      alLookup k (ts.foldl (fun a t => alInsert t.FilePath t a) acc) =
        match ts.reverse.find? (fun u => u.FilePath == k) with
        | some u => some u
        | none => alLookup k acc := by
  intro ts
  induction ts with
  | nil => intro acc; simp
  | cons t rest ih =>
    intro acc
    rw [List.foldl_cons, ih, List.reverse_cons, List.find?_append]
    cases hfind : rest.reverse.find? (fun u => u.FilePath == k) with
    | some u => simp
    | none =>
      by_cases hk : t.FilePath = k
      · rw [List.find?_cons_of_pos _ (by simpa using hk)]
        subst hk
        simp [alLookup_insert_self]
      · rw [List.find?_cons_of_neg _ (by simpa using hk)]
        simp [alLookup_insert_ne (fun he => hk he.symm)]

theorem alLookup_buildByPath_of_mem {ts : List TrackMetadata}
    {t : TrackMetadata}
    (hnd : (ts.map (fun u => u.FilePath)).Nodup) (hmem : t ∈ ts) :
    alLookup t.FilePath (buildByPath ts) = some t := by
  rw [buildByPath, alLookup_foldl_insert]
  have hnd' : (ts.reverse.map (fun u => u.FilePath)).Nodup := by
    rw [List.map_reverse]
    exact List.nodup_reverse.mpr hnd
  rw [find?_key_of_mem hnd' (List.mem_reverse.mpr hmem)]

theorem alLookup_buildByPath_of_not_mem {ts : List TrackMetadata} {k : String}
    (h : k ∉ ts.map (fun u => u.FilePath)) :
    alLookup k (buildByPath ts) = none := by
  rw [buildByPath, alLookup_foldl_insert]
  have h' : k ∉ ts.reverse.map (fun u => u.FilePath) := by
    intro hmem
    exact h (by
      rcases List.mem_map.mp hmem with ⟨u, hu, he⟩
      exact he ▸ List.mem_map_of_mem _ (List.mem_reverse.mp hu))
  rw [find?_key_of_not_mem h']
  rfl

/-! ### The merge loop -/

theorem mergeFold_fresh :
    ∀ (ts : List TrackMetadata) (m : Manager),
      (ts.map (fun u => u.FilePath)).Nodup →
      (∀ t ∈ ts, alLookup t.FilePath m.tracks = none) →
      (mergeFold m ts).order = m.order ++ ts.map (fun u => u.FilePath) ∧
      (∀ k, alLookup k (mergeFold m ts).tracks =
        match ts.find? (fun u => u.FilePath == k) with
        | some u => some u
        | none => alLookup k m.tracks) := by
  intro ts
  induction ts with
  | nil =>
    intro m _ _
    exact ⟨by simp [mergeFold], fun k => by simp [mergeFold]⟩
  | cons t rest ih =>
    intro m hnd hfresh
    have hlook : alLookup t.FilePath m.tracks = none :=
      hfresh t (List.mem_cons_self _ _)
    have hstep : mergeFold m (t :: rest) = mergeFold (mergeStep m t) rest := rfl
    have horder : (mergeStep m t).order = m.order ++ [t.FilePath] := by
      rw [mergeStep]
      simp [hlook]
    have htracks : (mergeStep m t).tracks = alInsert t.FilePath t m.tracks := rfl
    have hndr : (rest.map (fun u => u.FilePath)).Nodup :=
      (List.nodup_cons.mp (by simpa using hnd)).2
    have hfr : ∀ u ∈ rest, alLookup u.FilePath (mergeStep m t).tracks = none := by
      intro u hu
      have hne : u.FilePath ≠ t.FilePath := by
        intro he
        have : t.FilePath ∈ rest.map (fun v => v.FilePath) :=
          he ▸ List.mem_map_of_mem _ hu
        exact (List.nodup_cons.mp (by simpa using hnd)).1 this
      rw [htracks, alLookup_insert_ne hne]
      exact hfresh u (List.mem_cons_of_mem _ hu)
    obtain ⟨ho, hl⟩ := ih (mergeStep m t) hndr hfr
    constructor
    · rw [hstep, ho, horder]
      simp
    · intro k
      rw [hstep, hl k]
      by_cases hk : t.FilePath = k
      · subst hk
        rw [find?_key_of_not_mem (by
          intro hmem
          exact (List.nodup_cons.mp (by simpa using hnd)).1 hmem)]
        rw [List.find?_cons_of_pos _ (by simp), htracks, alLookup_insert_self]
      · rw [List.find?_cons_of_neg _ (by simpa using hk)]
        cases hfind : rest.find? (fun u => u.FilePath == k) with
        | some u => rfl
        | none => rw [htracks, alLookup_insert_ne (fun he => hk he.symm)]

theorem mergeStep_inv (m : Manager) (t : TrackMetadata) (h : Inv m) :
    Inv (mergeStep m t) := by
  obtain ⟨hnd, hok, hko⟩ := h
  by_cases hk : (alLookup t.FilePath m.tracks).isSome
  · have hmem : t.FilePath ∈ alKeys m.tracks :=
      (alLookup_isSome_iff_mem_keys _ _).mp hk
    refine ⟨?_, ?_, ?_⟩
    · rw [mergeStep]
      simpa [hk] using hnd
    · intro p hp
      rw [mergeStep] at hp ⊢
      simp only [hk, if_true] at hp
      simp only
      rw [mem_alKeys_insert]
      exact Or.inl (hok p hp)
    · intro p hp
      rw [mergeStep] at hp ⊢
      simp only at hp
      rw [mem_alKeys_insert] at hp
      simp only [hk, if_true]
      rcases hp with hp | rfl
      · exact hko p hp
      · exact hko _ hmem
  · have hmem : t.FilePath ∉ alKeys m.tracks := by
      intro hc
      exact hk ((alLookup_isSome_iff_mem_keys _ _).mpr hc)
    have hord : t.FilePath ∉ m.order := fun hc => hmem (hok _ hc)
    refine ⟨?_, ?_, ?_⟩
    · rw [mergeStep]
      simp only [hk, if_false]
      exact List.Nodup.append hnd (List.nodup_singleton _)
        (fun p hp hpe => hord ((List.mem_singleton.mp hpe) ▸ hp))
    · intro p hp
      rw [mergeStep] at hp ⊢
      simp only [hk, if_false] at hp
      simp only
      rw [mem_alKeys_insert]
      rcases List.mem_append.mp hp with hp | hp
      · exact Or.inl (hok p hp)
      · exact Or.inr (by simpa using hp)
    · intro p hp
      rw [mergeStep] at hp ⊢
      simp only at hp
      rw [mem_alKeys_insert] at hp
      simp only [hk, if_false]
      rcases hp with hp | rfl
      · exact List.mem_append.mpr (Or.inl (hko p hp))
      · exact List.mem_append.mpr (Or.inr (by simp))

theorem mergeFold_inv :
    ∀ (ts : List TrackMetadata) (m : Manager), Inv m → Inv (mergeFold m ts) := by
  intro ts
  induction ts with
  | nil => intro m h; exact h
  | cons t rest ih =>
    intro m h
    exact ih (mergeStep m t) (mergeStep_inv m t h)

theorem filterMap_keys_of_forall_some {g : String → Option TrackMetadata} :
    ∀ (ts : List TrackMetadata),
      (∀ t ∈ ts, g t.FilePath = some t) →
      (ts.map (fun u => u.FilePath)).filterMap g = ts := by
  intro ts
  induction ts with
  | nil => intro _; rfl
  | cons t rest ih =>
    intro h
    rw [List.map_cons, List.filterMap_cons, h t (List.mem_cons_self _ _)]
    rw [ih (fun u hu => h u (List.mem_cons_of_mem _ hu))]

theorem snapshot_mergeFold (m : Manager) (ts : List TrackMetadata)
    (hinv : Inv m) (hnd : (ts.map (fun u => u.FilePath)).Nodup)
    (hfresh : ∀ t ∈ ts, alLookup t.FilePath m.tracks = none) :
    snapshotLocked (mergeFold m ts) = snapshotLocked m ++ ts := by
  obtain ⟨ho, hl⟩ := mergeFold_fresh ts m hnd hfresh
  rw [snapshotLocked, ho, List.filterMap_append]
  congr 1
  · rw [snapshotLocked]
    apply List.filterMap_congr
    intro p hp
    rw [hl p]
    have hpk : p ∈ alKeys m.tracks := hinv.2.1 p hp
    have hnot : p ∉ ts.map (fun u => u.FilePath) := by
      intro hc
      rcases List.mem_map.mp hc with ⟨u, hu, he⟩
      have := hfresh u hu
      rw [he] at this
      exact (alLookup_eq_none_iff_not_mem_keys _ _).mp this hpk
    rw [find?_key_of_not_mem hnot]
  · apply filterMap_keys_of_forall_some
    intro t ht
    rw [hl t.FilePath, find?_key_of_mem hnd ht]

/-! ### Arrival-order independence of the ordered rebuild -/

theorem keys_filterMap_okOf (load : String → LoadResult) :
    ∀ (unique : List String),
      (∀ p ∈ unique, ∀ t, load p = .ok t → t.FilePath = p) →
      (unique.filterMap (fun p => okOf (load p))).map (fun u => u.FilePath)
        = unique.filter (fun p => (okOf (load p)).isSome) := by
  intro unique
  induction unique with
  | nil => intro _; rfl
  | cons p rest ih =>
    intro h
    have ihr := ih (fun u hu => h u (List.mem_cons_of_mem _ hu))
    cases hl : load p with
    | ok t =>
      have hfp := h p (List.mem_cons_self _ _) t hl
      simp [List.filterMap_cons, List.filter_cons, hl, hfp, ihr]
    | err e =>
      simp [List.filterMap_cons, List.filter_cons, hl, ihr]

theorem arrival_ordered (load : String → LoadResult)
    (unique : List String) (arrival : List (String × LoadResult))
    (hperm : arrival.Perm (unique.map (fun p => (p, load p))))
    (hnd : unique.Nodup)
    (hfp : ∀ p ∈ unique, ∀ t, load p = .ok t → t.FilePath = p) :
    unique.filterMap
        (fun p => alLookup p (buildByPath (arrival.filterMap (fun r => okOf r.2))))
      = unique.filterMap (fun p => okOf (load p)) := by
  have hperm2 : (arrival.filterMap (fun r => okOf r.2)).Perm
      (unique.filterMap (fun p => okOf (load p))) := by
    have h0 := hperm.filterMap (fun r => okOf r.2)
    rw [List.filterMap_map] at h0
    simpa [Function.comp] using h0
  have hkeysS : (unique.filterMap (fun p => okOf (load p))).map (fun u => u.FilePath)
      = unique.filter (fun p => (okOf (load p)).isSome) :=
    keys_filterMap_okOf load unique hfp
  have hndS : ((unique.filterMap (fun p => okOf (load p))).map (fun u => u.FilePath)).Nodup := by
    rw [hkeysS]
    exact hnd.filter _
  have hndN : ((arrival.filterMap (fun r => okOf r.2)).map (fun u => u.FilePath)).Nodup :=
    ((hperm2.map (fun u => u.FilePath)).nodup_iff).mpr hndS
  apply List.filterMap_congr
  intro p hp
  show alLookup p (buildByPath (arrival.filterMap (fun r => okOf r.2)))
    = okOf (load p)
  cases hl : load p with
  | ok t =>
    have hfpt := hfp p hp t hl
    have htS : t ∈ unique.filterMap (fun p => okOf (load p)) :=
      List.mem_filterMap.mpr ⟨p, hp, by simp [hl]⟩
    have htN : t ∈ arrival.filterMap (fun r => okOf r.2) :=
      (hperm2.mem_iff).mpr htS
    have hres := alLookup_buildByPath_of_mem hndN htN
    rw [hfpt] at hres
    rw [hres]
    rfl
  | err e =>
    have hnotin : p ∉ (arrival.filterMap (fun r => okOf r.2)).map (fun u => u.FilePath) := by
      intro hc
      have hmem : p ∈ (unique.filterMap (fun p => okOf (load p))).map (fun u => u.FilePath) :=
        ((hperm2.map (fun u => u.FilePath)).mem_iff).mp hc
      rw [hkeysS] at hmem
      have := List.of_mem_filter hmem
      rw [hl] at this
      simp [okOf] at this
    rw [alLookup_buildByPath_of_not_mem hnotin]
    rfl

/-! ### One closed-form description of a `loadAndMerge` run -/

theorem fresh_of_filterNew (m : Manager) (paths : List String)
    (load : String → LoadResult)
    (hfp : ∀ p ∈ filterNew m paths, ∀ t, load p = .ok t → t.FilePath = p) :
    ∀ t ∈ (filterNew m paths).filterMap (fun p => okOf (load p)),
      alLookup t.FilePath m.tracks = none := by
  intro t ht
  rcases List.mem_filterMap.mp ht with ⟨p, hp, hok⟩
  cases hl : load p with
  | ok u =>
    rw [hl] at hok
    cases hok
    rw [hfp p hp t hl]
    exact ((mem_filterNew m paths p).mp hp).2
  | err e => rw [hl] at hok; cases hok

theorem nodup_keys_of_filterNew (m : Manager) (paths : List String)
    (load : String → LoadResult)
    (hfp : ∀ p ∈ filterNew m paths, ∀ t, load p = .ok t → t.FilePath = p) :
    (((filterNew m paths).filterMap (fun p => okOf (load p))).map
      (fun u => u.FilePath)).Nodup := by
  rw [keys_filterMap_okOf load _ hfp]
  exact (filterNew_nodup m paths).filter _

theorem loadAndMerge_run (m : Manager) (paths : List String)
    (load : String → LoadResult) (arrival : List (String × LoadResult))
    (persist : Bool) (saveErr : Option String)
    (hinv : Inv m)
    (hperm : arrival.Perm ((filterNew m paths).map (fun p => (p, load p))))
    (hfp : ∀ p ∈ filterNew m paths, ∀ t, load p = .ok t → t.FilePath = p) :
    loadAndMerge m paths arrival persist saveErr =
      if (filterNew m paths).isEmpty then
        (m, { Tracks := snapshot m, Errors := [] }, none)
      else if ((filterNew m paths).filterMap (fun p => okOf (load p))).isEmpty then
        (m, { Tracks := snapshot m, Errors := errsOf arrival }, none)
      else
        (mergeFold m ((filterNew m paths).filterMap (fun p => okOf (load p))),
         { Tracks := snapshot m ++ (filterNew m paths).filterMap (fun p => okOf (load p))
           Errors := if persist then
               match saveErr with
               | some e => errsOf arrival ++ ["save library failed: " ++ e]
               | none => errsOf arrival
             else errsOf arrival },
         none) := by
  have hord := arrival_ordered load (filterNew m paths) arrival hperm
    (filterNew_nodup m paths) hfp
  have hsnap : ¬((filterNew m paths).filterMap (fun p => okOf (load p))).isEmpty →
      snapshot (mergeFold m ((filterNew m paths).filterMap (fun p => okOf (load p))))
        = snapshot m ++ (filterNew m paths).filterMap (fun p => okOf (load p)) := by
    intro _
    exact snapshot_mergeFold m _ hinv
      (nodup_keys_of_filterNew m paths load hfp)
      (fresh_of_filterNew m paths load hfp)
  simp only [loadAndMerge]
  by_cases hempty : (filterNew m paths).isEmpty
  · rw [if_pos hempty, if_pos hempty]
  · rw [if_neg hempty, if_neg hempty]
    rw [hord]
    by_cases hS : ((filterNew m paths).filterMap (fun p => okOf (load p))).isEmpty
    · rw [if_pos hS, if_pos hS]
    · rw [if_neg hS, if_neg hS, hsnap hS]

/-! ### Invariant helpers for single-record insertion -/

theorem Inv_insert_append {m : Manager} {k : String} (v : TrackMetadata)
    (hinv : Inv m) (h : k ∉ alKeys m.tracks) :
    Inv { tracks := alInsert k v m.tracks, order := m.order ++ [k] } := by
  obtain ⟨hnd, h1, h2⟩ := hinv
  have hord : k ∉ m.order := fun hc => h (h1 k hc)
  refine ⟨?_, ?_, ?_⟩
  · exact List.Nodup.append hnd (List.nodup_singleton _)
      (fun p hp hpe => hord ((List.mem_singleton.mp hpe) ▸ hp))
  · intro p hp
    simp only
    rw [mem_alKeys_insert]
    rcases List.mem_append.mp hp with hp | hp
    · exact Or.inl (h1 p hp)
    · exact Or.inr (by simpa using hp)
  · intro p hp
    simp only at hp
    rw [mem_alKeys_insert] at hp
    rcases hp with hp | rfl
    · exact List.mem_append.mpr (Or.inl (h2 p hp))
    · exact List.mem_append.mpr (Or.inr (by simp))

theorem Inv_insert_keep {m : Manager} {k : String} (v : TrackMetadata)
    (hinv : Inv m) (h : k ∈ alKeys m.tracks) :
    Inv { tracks := alInsert k v m.tracks, order := m.order } := by
  obtain ⟨hnd, h1, h2⟩ := hinv
  refine ⟨hnd, ?_, ?_⟩
  · intro p hp
    simp only
    rw [mem_alKeys_insert]
    exact Or.inl (h1 p hp)
  · intro p hp
    simp only at hp
    rw [mem_alKeys_insert] at hp
    rcases hp with hp | rfl
    · exact h2 p hp
    · exact h2 _ h

/-! ### Sample data used by the concrete witnesses -/

/-- A record carrying only its path and name, as a worker would produce it. -/
def sampleTrack (p : String) : TrackMetadata :=
  { blankTrack with FilePath := p, FileName := p }

/-- A loader for which every path reads successfully. -/
def sampleLoad (p : String) : LoadResult :=
  .ok (sampleTrack p)

/-- `Inv` holds for the freshly constructed manager. -/
theorem Inv_NewManager : Inv NewManager :=
  ⟨List.nodup_nil,
   fun p hp => absurd hp (List.not_mem_nil p),
   fun p hp => by simp [NewManager, alKeys] at hp⟩

/-- C1: within one ingestion call (`AddFiles`/`loadAndMerge`), for any
arrival order of the worker results (any permutation of the per-path
outcomes), when every new path loads successfully the resulting snapshot is
the old snapshot followed by the new records in input-path order — the newly
added slice of the snapshot carries exactly the new input paths, in order. -/
theorem loadAndMerge_preserves_input_order
    (m : Manager) (paths : List String) (load : String → LoadResult)
    (arrival : List (String × LoadResult)) (persist : Bool)
    (saveErr : Option String)
    (hinv : Inv m)
    (hperm : arrival.Perm ((filterNew m paths).map (fun p => (p, load p))))
    (hfp : ∀ p ∈ filterNew m paths, ∀ t, load p = .ok t → t.FilePath = p)
    (hok : ∀ p ∈ filterNew m paths, (okOf (load p)).isSome) :
    (loadAndMerge m paths arrival persist saveErr).2.1.Tracks
      = snapshot m ++ (filterNew m paths).filterMap (fun p => okOf (load p)) ∧
    (((loadAndMerge m paths arrival persist saveErr).2.1.Tracks.drop
        (snapshot m).length).map (fun u => u.FilePath)) = filterNew m paths := by
  rw [loadAndMerge_run m paths load arrival persist saveErr hinv hperm hfp]
  by_cases hempty : (filterNew m paths).isEmpty
  · have hnil : filterNew m paths = [] := List.isEmpty_iff.mp hempty
    rw [if_pos hempty, hnil]
    simp [snapshot]
  · have hSne : ¬((filterNew m paths).filterMap (fun p => okOf (load p))).isEmpty := by
      intro hS
      have hnil := List.isEmpty_iff.mp hS
      have hne : filterNew m paths ≠ [] := by
        intro h
        exact hempty (by rw [h]; rfl)
      rcases List.exists_mem_of_ne_nil _ hne with ⟨p, hp⟩
      rcases Option.isSome_iff_exists.mp (hok p hp) with ⟨t, ht⟩
      have : t ∈ (filterNew m paths).filterMap (fun p => okOf (load p)) :=
        List.mem_filterMap.mpr ⟨p, hp, ht⟩
      rw [hnil] at this
      exact absurd this (List.not_mem_nil t)
    rw [if_neg hempty, if_neg hSne]
    refine ⟨rfl, ?_⟩
    simp only [List.drop_left]
    rw [keys_filterMap_okOf load _ hfp]
    exact List.filter_eq_self.mpr (fun p hp => hok p hp)

/-- Witness for C1: three fresh paths `A`, `B`, `C` whose results arrive in
reversed order `C`, `B`, `A`; the snapshot is `[A, B, C]`. -/
theorem loadAndMerge_preserves_input_order_witness :
    (loadAndMerge NewManager ["A", "B", "C"]
        [("C", sampleLoad "C"), ("B", sampleLoad "B"), ("A", sampleLoad "A")]
        true none).2.1.Tracks
      = [sampleTrack "A", sampleTrack "B", sampleTrack "C"] := by
  have h := loadAndMerge_preserves_input_order NewManager ["A", "B", "C"]
    sampleLoad
    [("C", sampleLoad "C"), ("B", sampleLoad "B"), ("A", sampleLoad "A")]
    true none Inv_NewManager (by decide)
    (by
      intro p hp t ht
      injection ht with h2
      rw [← h2]
      rfl)
    (by intro p hp; rfl)
  rw [h.1]
  rfl

/-- C2: every index-mutating `Manager` operation — `loadAndMerge` (hence
`AddFiles`/`LoadStoredLibrary`), `ApplyMetadata` and `UpdateAndReload` —
preserves the index invariant: the order sequence and the map keys hold the
same path set, and no path appears twice in the order sequence. -/
theorem manager_mutations_preserve_Inv
    (m : Manager) (paths : List String) (arrival : List (String × LoadResult))
    (persist : Bool) (saveErr : Option String) (path : String)
    (overlay : TrackMetadata) (saveErr₂ : Option String)
    (loadRes : LoadResult) (hinv : Inv m) :
    Inv (loadAndMerge m paths arrival persist saveErr).1 ∧
    Inv (ApplyMetadata m path overlay).1 ∧
    Inv (UpdateAndReload m saveErr₂ loadRes).1 := by
  refine ⟨?_, ?_, ?_⟩
  · simp only [loadAndMerge]
    by_cases h1 : (filterNew m paths).isEmpty
    · rw [if_pos h1]
      exact hinv
    · rw [if_neg h1]
      by_cases h2 : ((filterNew m paths).filterMap
          (fun p => alLookup p (buildByPath (arrival.filterMap (fun r => okOf r.2))))).isEmpty
      · rw [if_pos h2]
        exact hinv
      · rw [if_neg h2]
        exact mergeFold_inv _ m hinv
  · rw [ApplyMetadata]
    cases h : alLookup path m.tracks with
    | none =>
      exact Inv_insert_append overlay hinv
        ((alLookup_eq_none_iff_not_mem_keys _ _).mp h)
    | some existing₀ =>
      exact Inv_insert_keep _ hinv
        ((alLookup_isSome_iff_mem_keys _ _).mp (by rw [h]; rfl))
  · cases saveErr₂ with
    | some e => exact hinv
    | none =>
      cases loadRes with
      | err e => exact hinv
      | ok refreshed =>
        by_cases hhas : hasPath m refreshed.FilePath
        · have hmem : refreshed.FilePath ∈ m.order := by
            exact List.mem_of_elem_eq_true hhas
          have hres : (UpdateAndReload m none (.ok refreshed)).1
              = { tracks := alInsert refreshed.FilePath refreshed m.tracks
                  order := m.order } := by
            simp [UpdateAndReload, hhas]
          rw [hres]
          exact Inv_insert_keep _ hinv (hinv.2.1 _ hmem)
        · have hmem : refreshed.FilePath ∉ m.order := by
            intro hc
            exact hhas (List.elem_eq_true_of_mem hc)
          have hkey : refreshed.FilePath ∉ alKeys m.tracks :=
            fun hc => hmem (hinv.2.2 _ hc)
          have hres : (UpdateAndReload m none (.ok refreshed)).1
              = { tracks := alInsert refreshed.FilePath refreshed m.tracks
                  order := m.order ++ [refreshed.FilePath] } := by
            simp [UpdateAndReload, hhas]
          rw [hres]
          exact Inv_insert_append _ hinv hkey

/-- Witness for C2: a batch ingest, an overlay application and an
update-reload on the fresh manager all preserve the invariant. -/
theorem manager_mutations_preserve_Inv_witness :
    Inv (loadAndMerge NewManager ["A"] [("A", sampleLoad "A")] true none).1 ∧
    Inv (ApplyMetadata NewManager "B" (sampleTrack "B")).1 ∧
    Inv (UpdateAndReload NewManager none (sampleLoad "C")).1 :=
  manager_mutations_preserve_Inv NewManager ["A"] [("A", sampleLoad "A")]
    true none "B" (sampleTrack "B") none (sampleLoad "C") Inv_NewManager

/-! ### C6: `ApplyMetadata` versus the pure merge policy -/

/-- Existing record and overlay exhibiting the difference between
`ApplyMetadata`'s inline field update and `mergeMetadata`. -/
def c6base : TrackMetadata :=
  { blankTrack with Format := "MP3" }

def c6overlay : TrackMetadata :=
  { blankTrack with Format := "FLAC" }

def c6manager : Manager :=
  { tracks := [("a", c6base)], order := ["a"] }

/-- C6 counterexample: for a path already present, the record returned by
`ApplyMetadata` is NOT `mergeMetadata existing overlay` — `ApplyMetadata`
never touches `Format` (nor `Bitrate`/`SampleRate`), while `mergeMetadata`
replaces a non-blank `Format`.  At this input the two differ. -/
theorem ApplyMetadata_ne_merge_cex :
    alLookup "a" c6manager.tracks = some c6base ∧
    (ApplyMetadata c6manager "a" c6overlay).2 ≠ mergeMetadata c6base c6overlay ∧
    (ApplyMetadata c6manager "a" c6overlay).2.Format = "MP3" ∧
    (mergeMetadata c6base c6overlay).Format = "FLAC" := by
  decide

/-- C6 (amended): when the path is absent, `ApplyMetadata` inserts and
returns the overlay itself (appending the path to the order); when present,
it returns (and stores) the existing record updated field-wise by the
overlay under literal non-empty tests for the eight string fields and the
cover image (setting has-cover whenever a non-empty cover is supplied,
regardless of the overlay's has-cover flag), strictly-positive tests for
track/disc/year, and it never changes format, bitrate or sample rate —
which agrees with `mergeMetadata` only on records where those aspects
coincide. -/
theorem ApplyMetadata_characterization (m : Manager) (path : String)
    (ov : TrackMetadata) :
    ApplyMetadata m path ov =
      match alLookup path m.tracks with
      | none =>
        ({ tracks := alInsert path ov m.tracks, order := m.order ++ [path] },
          ov)
      | some ex =>
        let upd : TrackMetadata :=
          { FilePath := ex.FilePath
            FileName := ex.FileName
            Title := if ov.Title != "" then ov.Title else ex.Title
            Artist := if ov.Artist != "" then ov.Artist else ex.Artist
            Album := if ov.Album != "" then ov.Album else ex.Album
            AlbumArtist := if ov.AlbumArtist != "" then ov.AlbumArtist else ex.AlbumArtist
            TrackNumber := if ov.TrackNumber > 0 then ov.TrackNumber else ex.TrackNumber
            DiscNumber := if ov.DiscNumber > 0 then ov.DiscNumber else ex.DiscNumber
            Genre := if ov.Genre != "" then ov.Genre else ex.Genre
            Year := if ov.Year > 0 then ov.Year else ex.Year
            Comment := if ov.Comment != "" then ov.Comment else ex.Comment
            Composer := if ov.Composer != "" then ov.Composer else ex.Composer
            Lyrics := if ov.Lyrics != "" then ov.Lyrics else ex.Lyrics
            HasCover := if ov.CoverImage != "" then true else ex.HasCover
            CoverImage := if ov.CoverImage != "" then ov.CoverImage else ex.CoverImage
            Format := ex.Format
            Bitrate := ex.Bitrate
            SampleRate := ex.SampleRate }
        ({ m with tracks := alInsert path upd m.tracks }, upd) := by
  cases h : alLookup path m.tracks with
  | none => simp only [ApplyMetadata, h]
  | some ex =>
    simp only [ApplyMetadata, h, guardUpd_Title, guardUpd_Artist,
      guardUpd_Album, guardUpd_AlbumArtist, guardUpd_Genre, guardUpd_Comment,
      guardUpd_Composer, guardUpd_Lyrics, guardUpd_Cover, guardUpd_TrackNumber,
      guardUpd_DiscNumber, guardUpd_Year, decide_eq_true_eq]

/-! ### C4: failure isolation within a batch -/

/-- C4: no single failure aborts an `AddFiles` batch: the top-level error is
always nil; each failed path is reported as a `"path: cause"` entry of the
error list while every successfully loaded record still enters both the
snapshot and the index map; and a path-list persistence failure only appends
`"save library failed: …"` to the error list without rolling back the
in-memory merge. -/
theorem addFiles_failure_isolation
    (m : Manager) (paths : List String) (load : String → LoadResult)
    (arrival : List (String × LoadResult)) (saveErr : Option String)
    (hinv : Inv m)
    (hperm : arrival.Perm ((filterNew m paths).map (fun p => (p, load p))))
    (hfp : ∀ p ∈ filterNew m paths, ∀ t, load p = .ok t → t.FilePath = p) :
    (AddFiles m paths arrival saveErr).2.2 = none ∧
    (∀ p msg, p ∈ filterNew m paths → load p = .err msg →
      (p ++ ": " ++ msg) ∈ (AddFiles m paths arrival saveErr).2.1.Errors) ∧
    (∀ p t, p ∈ filterNew m paths → load p = .ok t →
      t ∈ (AddFiles m paths arrival saveErr).2.1.Tracks ∧
      alLookup p (AddFiles m paths arrival saveErr).1.tracks = some t) ∧
    (∀ e, saveErr = some e →
      (∃ p, p ∈ filterNew m paths ∧ (okOf (load p)).isSome) →
      ("save library failed: " ++ e) ∈ (AddFiles m paths arrival saveErr).2.1.Errors) := by
  rw [AddFiles, loadAndMerge_run m paths load arrival true saveErr hinv hperm hfp]
  have herrmem : ∀ p msg, p ∈ filterNew m paths → load p = .err msg →
      (p ++ ": " ++ msg) ∈ errsOf arrival := by
    intro p msg hp hl
    have hpair : (p, load p) ∈ (filterNew m paths).map (fun q => (q, load q)) :=
      List.mem_map_of_mem _ hp
    have harr : (p, load p) ∈ arrival := (hperm.mem_iff).mpr hpair
    refine List.mem_filterMap.mpr ⟨(p, load p), harr, ?_⟩
    rw [hl]
  have hSmem : ∀ p t, p ∈ filterNew m paths → load p = .ok t →
      t ∈ (filterNew m paths).filterMap (fun q => okOf (load q)) := by
    intro p t hp hl
    exact List.mem_filterMap.mpr ⟨p, hp, by rw [hl]; rfl⟩
  by_cases hempty : (filterNew m paths).isEmpty
  · have hnil : filterNew m paths = [] := List.isEmpty_iff.mp hempty
    rw [if_pos hempty]
    refine ⟨rfl, ?_, ?_, ?_⟩
    · intro p msg hp
      rw [hnil] at hp
      exact absurd hp (List.not_mem_nil p)
    · intro p t hp
      rw [hnil] at hp
      exact absurd hp (List.not_mem_nil p)
    · rintro e rfl ⟨p, hp, _⟩
      rw [hnil] at hp
      exact absurd hp (List.not_mem_nil p)
  · rw [if_neg hempty]
    by_cases hS : ((filterNew m paths).filterMap (fun p => okOf (load p))).isEmpty
    · have hnilS : (filterNew m paths).filterMap (fun p => okOf (load p)) = [] :=
        List.isEmpty_iff.mp hS
      rw [if_pos hS]
      refine ⟨rfl, ?_, ?_, ?_⟩
      · intro p msg hp hl
        exact herrmem p msg hp hl
      · intro p t hp hl
        have := hSmem p t hp hl
        rw [hnilS] at this
        exact absurd this (List.not_mem_nil t)
      · rintro e rfl ⟨p, hp, hsome⟩
        rcases Option.isSome_iff_exists.mp hsome with ⟨t, ht⟩
        cases hl : load p with
        | ok u =>
          have := hSmem p u hp hl
          rw [hnilS] at this
          exact absurd this (List.not_mem_nil u)
        | err msg =>
          rw [hl] at ht
          cases ht
    · rw [if_neg hS]
      obtain ⟨_, hlook⟩ := mergeFold_fresh
        ((filterNew m paths).filterMap (fun p => okOf (load p))) m
        (nodup_keys_of_filterNew m paths load hfp)
        (fresh_of_filterNew m paths load hfp)
      refine ⟨rfl, ?_, ?_, ?_⟩
      · intro p msg hp hl
        cases saveErr with
        | none => exact herrmem p msg hp hl
        | some e => exact List.mem_append.mpr (Or.inl (herrmem p msg hp hl))
      · intro p t hp hl
        have htS := hSmem p t hp hl
        refine ⟨List.mem_append.mpr (Or.inr htS), ?_⟩
        have := hlook p
        rw [show ((filterNew m paths).filterMap (fun q => okOf (load q))).find?
              (fun u => u.FilePath == p) = some t from ?_] at this
        · exact this
        · have hfind := find?_key_of_mem (nodup_keys_of_filterNew m paths load hfp) htS
          rw [hfp p hp t hl] at hfind
          exact hfind
      · rintro e rfl _
        exact List.mem_append.mpr (Or.inr (List.mem_singleton.mpr rfl))

/-- The loader of the C4 witness: path `p2` fails, the others succeed. -/
def c4load (p : String) : LoadResult :=
  if p = "p2" then .err "boom" else .ok (sampleTrack p)

/-- Witness for C4: ingesting `[p1, p2, p3]` where `p2` fails to read and the
path-list save also fails — both errors are reported, `p1`/`p3` still land in
the snapshot, and the top-level error is nil. -/
theorem addFiles_failure_isolation_witness :
    (AddFiles NewManager ["p1", "p2", "p3"]
        [("p3", c4load "p3"), ("p1", c4load "p1"), ("p2", c4load "p2")]
        (some "disk full")).2.2 = none ∧
    ("p2: boom") ∈ (AddFiles NewManager ["p1", "p2", "p3"]
        [("p3", c4load "p3"), ("p1", c4load "p1"), ("p2", c4load "p2")]
        (some "disk full")).2.1.Errors ∧
    sampleTrack "p1" ∈ (AddFiles NewManager ["p1", "p2", "p3"]
        [("p3", c4load "p3"), ("p1", c4load "p1"), ("p2", c4load "p2")]
        (some "disk full")).2.1.Tracks ∧
    ("save library failed: disk full") ∈ (AddFiles NewManager ["p1", "p2", "p3"]
        [("p3", c4load "p3"), ("p1", c4load "p1"), ("p2", c4load "p2")]
        (some "disk full")).2.1.Errors := by
  have hfp : ∀ p ∈ filterNew NewManager ["p1", "p2", "p3"],
      ∀ t, c4load p = .ok t → t.FilePath = p := by
    intro p hp t ht
    by_cases h2 : p = "p2"
    · rw [c4load, if_pos h2] at ht
      cases ht
    · rw [c4load, if_neg h2] at ht
      injection ht with h3
      rw [← h3]
      rfl
  have h := addFiles_failure_isolation NewManager ["p1", "p2", "p3"] c4load
    [("p3", c4load "p3"), ("p1", c4load "p1"), ("p2", c4load "p2")]
    (some "disk full") Inv_NewManager (by decide) hfp
  refine ⟨h.1, ?_, ?_, ?_⟩
  · exact h.2.1 "p2" "boom" (by decide) rfl
  · exact (h.2.2.1 "p1" (sampleTrack "p1") (by decide) rfl).1
  · exact h.2.2.2 "disk full" rfl ⟨"p1", by decide, by decide⟩

/-! ### C7: idempotence of re-ingestion -/

/-- C7: re-ingesting the same path list is a no-op: when the first
`AddFiles` call ingested every path successfully, a second call with the same
list (any arrival order, any save outcome) leaves the manager untouched,
returns the same snapshot (in particular of identical length) through the
empty-`filterNew` fast path, and reports no errors and a nil top-level
error. -/
theorem reingest_idempotent
    (m : Manager) (paths : List String) (load : String → LoadResult)
    (arrival arrival₂ : List (String × LoadResult))
    (saveErr saveErr₂ : Option String)
    (hinv : Inv m)
    (hperm : arrival.Perm ((filterNew m paths).map (fun p => (p, load p))))
    (hfp : ∀ p ∈ filterNew m paths, ∀ t, load p = .ok t → t.FilePath = p)
    (hok : ∀ p ∈ filterNew m paths, (okOf (load p)).isSome) :
    (AddFiles (AddFiles m paths arrival saveErr).1 paths arrival₂ saveErr₂).1
      = (AddFiles m paths arrival saveErr).1 ∧
    (AddFiles (AddFiles m paths arrival saveErr).1 paths arrival₂ saveErr₂).2.1.Tracks
      = (AddFiles m paths arrival saveErr).2.1.Tracks ∧
    (AddFiles (AddFiles m paths arrival saveErr).1 paths arrival₂ saveErr₂).2.1.Tracks.length
      = (AddFiles m paths arrival saveErr).2.1.Tracks.length ∧
    (AddFiles (AddFiles m paths arrival saveErr).1 paths arrival₂ saveErr₂).2.1.Errors = [] ∧
    (AddFiles (AddFiles m paths arrival saveErr).1 paths arrival₂ saveErr₂).2.2 = none := by
  have hrun := loadAndMerge_run m paths load arrival true saveErr hinv hperm hfp
  rw [AddFiles, AddFiles, hrun]
  by_cases hempty : (filterNew m paths).isEmpty
  · rw [if_pos hempty]
    simp only
    rw [loadAndMerge]
    rw [if_pos hempty]
    exact ⟨rfl, rfl, rfl, rfl, rfl⟩
  · have hSne : ¬((filterNew m paths).filterMap (fun p => okOf (load p))).isEmpty := by
      intro hS
      have hnil := List.isEmpty_iff.mp hS
      have hne : filterNew m paths ≠ [] := by
        intro h
        exact hempty (by rw [h]; rfl)
      rcases List.exists_mem_of_ne_nil _ hne with ⟨p, hp⟩
      rcases Option.isSome_iff_exists.mp (hok p hp) with ⟨t, ht⟩
      have : t ∈ (filterNew m paths).filterMap (fun p => okOf (load p)) :=
        List.mem_filterMap.mpr ⟨p, hp, ht⟩
      rw [hnil] at this
      exact absurd this (List.not_mem_nil t)
    rw [if_neg hempty, if_neg hSne]
    simp only
    obtain ⟨_, hlook⟩ := mergeFold_fresh
      ((filterNew m paths).filterMap (fun p => okOf (load p))) m
      (nodup_keys_of_filterNew m paths load hfp)
      (fresh_of_filterNew m paths load hfp)
    have hall : ∀ p ∈ paths,
        (alLookup p (mergeFold m
          ((filterNew m paths).filterMap (fun q => okOf (load q)))).tracks).isSome := by
      intro p hp
      rw [hlook p]
      cases hlm : alLookup p m.tracks with
      | some v =>
        cases hfind : ((filterNew m paths).filterMap
            (fun q => okOf (load q))).find? (fun u => u.FilePath == p) with
        | some u => rfl
        | none => rfl
      | none =>
        have hpnew : p ∈ filterNew m paths :=
          (mem_filterNew m paths p).mpr ⟨hp, hlm⟩
        rcases Option.isSome_iff_exists.mp (hok p hpnew) with ⟨t, ht⟩
        have hloadok : load p = .ok t := by
          cases hl : load p with
          | ok u => rw [hl] at ht; cases ht; rfl
          | err e => rw [hl] at ht; cases ht
        have htS : t ∈ (filterNew m paths).filterMap (fun q => okOf (load q)) :=
          List.mem_filterMap.mpr ⟨p, hpnew, ht⟩
        have hfind := find?_key_of_mem (nodup_keys_of_filterNew m paths load hfp) htS
        rw [hfp p hpnew t hloadok] at hfind
        rw [hfind]
        rfl
    have hnil2 : filterNew
        (mergeFold m ((filterNew m paths).filterMap (fun q => okOf (load q))))
        paths = [] :=
      filterNew_eq_nil _ paths hall
    rw [loadAndMerge]
    rw [if_pos (by rw [hnil2]; rfl)]
    have hsnap : snapshot (mergeFold m
        ((filterNew m paths).filterMap (fun q => okOf (load q))))
        = snapshot m ++ (filterNew m paths).filterMap (fun q => okOf (load q)) :=
      snapshot_mergeFold m _ hinv
        (nodup_keys_of_filterNew m paths load hfp)
        (fresh_of_filterNew m paths load hfp)
    exact ⟨rfl, by rw [hsnap], by rw [hsnap], rfl, rfl⟩

/-- Witness for C7: ingesting `[D, E]` twice — the second call returns the
unchanged two-track snapshot with no errors. -/
theorem reingest_idempotent_witness :
    (AddFiles (AddFiles NewManager ["D", "E"]
        [("E", sampleLoad "E"), ("D", sampleLoad "D")] none).1 ["D", "E"]
        [("D", sampleLoad "D"), ("E", sampleLoad "E")] none).2.1.Tracks
      = (AddFiles NewManager ["D", "E"]
        [("E", sampleLoad "E"), ("D", sampleLoad "D")] none).2.1.Tracks ∧
    (AddFiles (AddFiles NewManager ["D", "E"]
        [("E", sampleLoad "E"), ("D", sampleLoad "D")] none).1 ["D", "E"]
        [("D", sampleLoad "D"), ("E", sampleLoad "E")] none).2.1.Errors = [] := by
  have h := reingest_idempotent NewManager ["D", "E"] sampleLoad
    [("E", sampleLoad "E"), ("D", sampleLoad "D")]
    [("D", sampleLoad "D"), ("E", sampleLoad "E")] none none
    Inv_NewManager (by decide)
    (by
      intro p hp t ht
      injection ht with h2
      rw [← h2]
      rfl)
    (by intro p hp; rfl)
  exact ⟨h.2.1, h.2.2.2.1⟩

/-! ## Tag reader and sidecar cache (`backend/metadata/metadata.go`)

OS and library calls are modelled by an environment record `MetaEnv`:
`os.Open` / `tag.ReadFrom` / `analysis.GetAudioProperties` outcomes for the
one path being read, and the pure path functions `filepath.Base`,
`filepath.Ext`, `filepath.Clean`, `filepath.Abs`, `os.UserConfigDir`,
`runtime.GOOS == "windows"` and the hex SHA-1.  The sidecar store is an
association list from sidecar file path to parsed content; `encoding/json`
is modelled at the parsed-value level and `os.MkdirAll`/`os.WriteFile` as
always succeeding. -/

/-- Go `strings.ToUpper` (character-wise, as `Char.toUpper`). -/
def toUpperStr (s : String) : String :=
  String.mk (s.data.map Char.toUpper)

/-- Go `strings.ToLower` (character-wise, as `Char.toLower`). -/
def toLowerStr (s : String) : String :=
  String.mk (s.data.map Char.toLower)

/-- Go `strings.TrimSuffix`. -/
def trimSuffixStr (s suf : String) : String :=
  if suf.data.isSuffixOf s.data then
    String.mk (s.data.take (s.data.length - suf.data.length))
  else s

/-- Go `strings.TrimPrefix(s, ".")`. -/
def trimPrefixDot (s : String) : String :=
  match s.data with
  | '.' :: rest => String.mk rest
  | _ => s

/-- An embedded picture as `tag` reports it: its MIME type, its base64
transport text and its raw byte length (for the size ceiling). -/
structure Picture where
  mimeType : String
  dataB64 : String
  dataLen : Nat
deriving DecidableEq, Repr

/-- The fields a successful `tag.ReadFrom` exposes. -/
structure TagData where
  title : String
  artist : String
  album : String
  albumArtist : String
  track : Int
  disc : Int
  genre : String
  year : Int
  comment : String
  composer : String
  lyrics : String
  format : String
  picture : Option Picture
deriving DecidableEq, Repr

/-- Environment of one `LoadMetadata` call. -/
structure MetaEnv where
  openErr : Option String
  tagData : Option TagData
  audioProps : Option (Int × Int)
  basename : String → String
  extFn : String → String
  cleanFn : String → String
  absFn : String → Option String
  isWindows : Bool
  userConfigDir : Option String
  sha1Hex : String → String

/-- Content of one sidecar file: a parsed record, or text that
`json.Unmarshal` rejects. -/
inductive SideFile where
  | invalid
  | record (md : TrackMetadata)
deriving DecidableEq, Repr

/-- The sidecar store: sidecar file path to content; absent keys model
missing files. -/
def SideFS : Type :=
  List (String × SideFile)

/-- `trimExt` from metadata.go: `strings.TrimSuffix(name, filepath.Ext(name))`. -/
def trimExt (env : MetaEnv) (name : String) : String :=
  trimSuffixStr name (env.extFn name)

/-- `firstNonEmpty` from metadata.go. -/
def firstNonEmpty : List String → String
  | [] => ""
  | v :: rest => if notBlank v then v else firstNonEmpty rest

/-- `sidecarDir` from metadata.go: `<config-dir>/Kitty/sidecars`, failing when
the user config dir is unavailable or blank. -/
def sidecarDir (env : MetaEnv) : Option String :=
  match env.userConfigDir with
  | none => none
  | some d => if notBlank d then some (d ++ "/Kitty/sidecars") else none

/-- `legacySidecarPath` from metadata.go. -/
def legacySidecarPath (path : String) : String :=
  path ++ ".kittymeta.json"

/-- `sidecarKey` from metadata.go: clean, make absolute when possible,
lower-case on Windows. -/
def sidecarKey (env : MetaEnv) (path : String) : String :=
  let clean := env.cleanFn path
  let clean :=
    match env.absFn clean with
    | some a => if notBlank a then a else clean
    | none => clean
  if env.isWindows then toLowerStr clean else clean

/-- `sidecarPath` from metadata.go: the hashed cache location, degrading to
the legacy adjacent path when the sidecar directory is unavailable. -/
def sidecarPath (env : MetaEnv) (path : String) : String :=
  match sidecarDir env with
  | none => legacySidecarPath path
  | some dir => dir ++ "/" ++ env.sha1Hex (sidecarKey env path) ++ ".kittymeta.json"

/-- `writeSidecar` from metadata.go: marshal the record to the hashed path,
then remove the legacy file when it is a different path (ignoring errors). -/
def writeSidecar (env : MetaEnv) (fs : SideFS) (md : TrackMetadata) : SideFS :=
  let path := sidecarPath env md.FilePath
  let fs' := alInsert path (.record md) fs
  let legacy := legacySidecarPath md.FilePath
  if legacy = path then fs' else alErase legacy fs'

/-- `readSidecar` from metadata.go: read the hashed path, fall back to the
legacy path when that read fails, unmarshal, re-derive `FilePath`/`FileName`
from the lookup path, and opportunistically migrate legacy content to the
hashed location when the hashed file does not exist. -/
def readSidecar (env : MetaEnv) (fs : SideFS) (path : String) :
    Option TrackMetadata × SideFS :=
  let primary := sidecarPath env path
  let dataOpt : Option SideFile :=
    match alLookup primary fs with
    | some f => some f
    | none =>
      let legacy := legacySidecarPath path
      if legacy = primary then none
      else
        match alLookup legacy fs with
        | some f => some f
        | none => none
  match dataOpt with
  | none => (none, fs)
  | some .invalid => (none, fs)
  | some (.record stored) =>
    let md := { stored with FilePath := path, FileName := env.basename path }
    if legacySidecarPath path ≠ primary then
      if alLookup primary fs = none then (some md, writeSidecar env fs md)
      else (some md, fs)
    else (some md, fs)

/-- `minimalMetadata` from metadata.go: the fallback record for unreadable
tags. -/
def minimalMetadata (env : MetaEnv) (path : String) : TrackMetadata :=
  let base := env.basename path
  { FilePath := path
    FileName := base
    Title := trimExt env base
    Artist := "Unknown Artist"
    Album := "Unknown Album"
    AlbumArtist := ""
    TrackNumber := 0
    DiscNumber := 0
    Genre := ""
    Year := 0
    Comment := ""
    Composer := ""
    Lyrics := ""
    HasCover := false
    CoverImage := ""
    Format := trimPrefixDot (toUpperStr (env.extFn path))
    Bitrate := 0
    SampleRate := 0 }

/-- `LoadMetadata` from metadata.go.  Returns the Go pair
`(*TrackMetadata, error)` plus the (possibly migrated) sidecar store. -/
def LoadMetadata (env : MetaEnv) (fs : SideFS) (path : String) :
    LoadResult × SideFS :=
  match env.openErr with
  | some e => (.err e, fs)
  | none =>
    match env.tagData with
    | none =>
      let md := minimalMetadata env path
      match readSidecar env fs path with
      | (some side, fs') => (.ok (mergeMetadata md side), fs')
      | (none, fs') => (.ok md, fs')
    | some tag =>
      let base := env.basename path
      let md : TrackMetadata :=
        { FilePath := path
          FileName := base
          Title := firstNonEmpty [tag.title, trimExt env base]
          Artist := firstNonEmpty [tag.artist, "Unknown Artist"]
          Album := firstNonEmpty [tag.album, "Unknown Album"]
          AlbumArtist := tag.albumArtist
          TrackNumber := tag.track
          DiscNumber := tag.disc
          Genre := tag.genre
          Year := tag.year
          Comment := tag.comment
          Composer := tag.composer
          Lyrics := tag.lyrics
          HasCover := false
          CoverImage := ""
          Format := firstNonEmpty [tag.format, trimPrefixDot (toUpperStr (env.extFn path))]
          Bitrate := 0
          SampleRate := 0 }
      let md :=
        match tag.picture with
        | none => md
        | some pic =>
          if pic.dataLen > 8 * 1024 * 1024 then md
          else
            { md with
              HasCover := true
              CoverImage := "data:"
                ++ (if pic.mimeType = "" then "image/jpeg" else pic.mimeType)
                ++ ";base64," ++ pic.dataB64 }
      let md :=
        match env.audioProps with
        | some props => { md with Bitrate := props.1, SampleRate := props.2 }
        | none => md
      match readSidecar env fs path with
      | (some side, fs') => (.ok (mergeMetadata md side), fs')
      | (none, fs') => (.ok md, fs')

/-! ### C9: sidecar round trip -/

theorem writeSidecar_lookup_primary (env : MetaEnv) (fs : SideFS)
    (md : TrackMetadata) :
    alLookup (sidecarPath env md.FilePath) (writeSidecar env fs md)
      = some (.record md) := by
  rw [writeSidecar]
  by_cases h : legacySidecarPath md.FilePath = sidecarPath env md.FilePath
  · rw [if_pos h, alLookup_insert_self]
  · rw [if_neg h, alLookup_erase_ne (fun he => h he.symm),
      alLookup_insert_self]

/-- C9: writing a record's sidecar and reading it back by the same path
reproduces every field of the written record exactly, except that `FilePath`
and `FileName` are re-derived from the lookup path (for the same path,
`FilePath` is thereby unchanged and `FileName` becomes the basename of the
path); the store is not modified further by the read. -/
theorem sidecar_roundTrip (env : MetaEnv) (fs : SideFS) (md : TrackMetadata) :
    readSidecar env (writeSidecar env fs md) md.FilePath
      = (some { md with
                FilePath := md.FilePath
                FileName := env.basename md.FilePath },
         writeSidecar env fs md) := by
  simp only [readSidecar, writeSidecar_lookup_primary]
  by_cases h : legacySidecarPath md.FilePath ≠ sidecarPath env md.FilePath
  · rw [if_pos h, if_neg (fun hc => Option.noConfusion hc)]
  · rw [if_neg h]

/-! ### C5: the tag reader's fallback behaviour -/

/-- Environment of a failing `os.Open` call. -/
def c5errEnv : MetaEnv :=
  { openErr := some "open song.xyz: no such file or directory"
    tagData := none
    audioProps := none
    basename := fun s => s
    extFn := fun _ => ".xyz"
    cleanFn := fun s => s
    absFn := fun _ => none
    isWindows := false
    userConfigDir := none
    sha1Hex := fun s => s }

/-- C5 counterexample: when the file cannot be opened (`os.Open` fails),
`LoadMetadata` returns that error outward instead of a nil-error minimal
record — the claimed "never fails outward on any read error" is false for
read (open) errors; only tag *parse* errors fall back to the minimal
record. -/
theorem loadMetadata_open_error_cex :
    (LoadMetadata c5errEnv [] "song.xyz").1
      = .err "open song.xyz: no such file or directory" := rfl

/-- C5 (amended): after a successful open, any tag *parse* error makes
`LoadMetadata` return — with nil error — the minimal record (title = file
name with extension stripped, sentinel "Unknown Artist"/"Unknown Album",
format = upper-cased file extension without its dot) with the sidecar record,
when readable, merged on top; an `os.Open` failure is instead returned as the
call's error. -/
theorem loadMetadata_parse_fallback (env : MetaEnv) (fs : SideFS)
    (path : String) (hopen : env.openErr = none) (htag : env.tagData = none) :
    (LoadMetadata env fs path).1
      = .ok (match (readSidecar env fs path).1 with
          | some side => mergeMetadata (minimalMetadata env path) side
          | none => minimalMetadata env path) ∧
    (minimalMetadata env path).Title = trimExt env (env.basename path) ∧
    (minimalMetadata env path).Artist = "Unknown Artist" ∧
    (minimalMetadata env path).Album = "Unknown Album" ∧
    (minimalMetadata env path).Format
      = trimPrefixDot (toUpperStr (env.extFn path)) := by
  refine ⟨?_, rfl, rfl, rfl, rfl⟩
  simp only [LoadMetadata, hopen, htag]
  rcases h : readSidecar env fs path with ⟨side, fs'⟩
  cases side <;> simp [h]

/-- Environment of a successful open whose tag parse fails. -/
def c5okEnv : MetaEnv :=
  { openErr := none
    tagData := none
    audioProps := none
    basename := fun s => s
    extFn := fun _ => ".xyz"
    cleanFn := fun s => s
    absFn := fun _ => none
    isWindows := false
    userConfigDir := none
    sha1Hex := fun s => s }

/-- Witness for the amended C5 at a concrete unreadable-tag file with no
sidecar present. -/
theorem loadMetadata_parse_fallback_witness :
    (LoadMetadata c5okEnv [] "song.xyz").1
      = .ok (match (readSidecar c5okEnv [] "song.xyz").1 with
          | some side => mergeMetadata (minimalMetadata c5okEnv "song.xyz") side
          | none => minimalMetadata c5okEnv "song.xyz") ∧
    (minimalMetadata c5okEnv "song.xyz").Title
      = trimExt c5okEnv (c5okEnv.basename "song.xyz") ∧
    (minimalMetadata c5okEnv "song.xyz").Artist = "Unknown Artist" ∧
    (minimalMetadata c5okEnv "song.xyz").Album = "Unknown Album" ∧
    (minimalMetadata c5okEnv "song.xyz").Format
      = trimPrefixDot (toUpperStr (c5okEnv.extFn "song.xyz")) :=
  loadMetadata_parse_fallback c5okEnv [] "song.xyz" rfl rfl

/-! ## Persisted library path list (`backend/storage`, storage.go)

`os.UserConfigDir` is an environment value; `filepath.Join(dir, name)` is
modelled as `dir ++ "/" ++ name`.  A config file is absent, unreadable (a
non-not-exist read error carrying its message) or content; the content is the
parsed `Library{Files: []string}` object (`encoding/json` modelled at the
parsed-value level, `none` standing for text `json.Unmarshal` rejects), and
`os.MkdirAll`/`os.WriteFile` are modelled as succeeding. -/

structure StorageEnv where
  userConfigDir : Option String

/-- State of one config file on disk. -/
inductive ConfFile where
  | absent
  | unreadable (msg : String)
  | content (lib : Option (List String))
deriving DecidableEq, Repr

/-- The config store: file path to state; missing keys are absent files. -/
def StorageFS : Type :=
  List (String × ConfFile)

/-- The outcome of `os.ReadFile` on the store. -/
def readConf (fs : StorageFS) (p : String) : ConfFile :=
  (alLookup p fs).getD .absent

/-- `GetConfigPath` from storage.go. -/
def GetConfigPath (env : StorageEnv) : String :=
  match env.userConfigDir with
  | none => "kitty_library.json"
  | some d => d ++ "/kitty_library.json"

/-- `getLegacyConfigPath` from storage.go. -/
def getLegacyConfigPath (env : StorageEnv) : String :=
  match env.userConfigDir with
  | none => "metago_library.json"
  | some d => d ++ "/metago_library.json"

/-- `json.Unmarshal` of a library file's content into `Library.Files`. -/
def unmarshalLib : Option (List String) → List String × Option String
  | some files => (files, none)
  | none => ([], some "invalid library json")

/-- `SaveLibrary` from storage.go: marshal `Library{Files: files}` and write
it at the current-name path. -/
def SaveLibrary (env : StorageEnv) (fs : StorageFS) (files : List String) :
    StorageFS :=
  alInsert (GetConfigPath env) (.content (some files)) fs

/-- `LoadLibrary` from storage.go: read the current-name file; a not-exist
error yields `([], nil)`; any other read error falls back to the legacy-name
file when that is a different path (returning the primary error if the legacy
read also fails); finally unmarshal whichever data was read. -/
def LoadLibrary (env : StorageEnv) (fs : StorageFS) :
    List String × Option String :=
  let path := GetConfigPath env
  match readConf fs path with
  | .content c => unmarshalLib c
  | .absent => ([], none)
  | .unreadable msg =>
    let legacy := getLegacyConfigPath env
    if legacy ≠ path then
      match readConf fs legacy with
      | .content c => unmarshalLib c
      | _ => ([], some msg)
    else ([], some msg)

theorem configPath_ne_legacy (env : StorageEnv) :
    GetConfigPath env ≠ getLegacyConfigPath env := by
  cases h : env.userConfigDir with
  | none =>
    simp only [GetConfigPath, getLegacyConfigPath, h]
    decide
  | some d =>
    simp only [GetConfigPath, getLegacyConfigPath, h]
    intro he
    have hdata := congrArg String.data he
    rw [String.data_append, String.data_append] at hdata
    exact absurd (List.append_cancel_left hdata) (by decide)

/-! ### C10: current-name/legacy-name behaviour of the path-list store -/

/-- Environment and store of the C10 counterexample: the current-name file is
missing while the legacy-name file holds `{"files": ["x.mp3"]}`. -/
def c10env : StorageEnv :=
  { userConfigDir := some "cfg" }

def c10fs : StorageFS :=
  [("cfg/metago_library.json", .content (some ["x.mp3"]))]

/-- C10 counterexample: with the current-name file absent (the ordinary
migration situation) and the legacy file present, `LoadLibrary` returns
`([], nil)` without consulting the legacy file — the claimed fallback
"whenever the current-name file cannot be read" does not happen on a
not-exist error. -/
theorem loadLibrary_no_fallback_on_absent_cex :
    readConf c10fs (GetConfigPath c10env) = .absent ∧
    readConf c10fs (getLegacyConfigPath c10env)
      = .content (some ["x.mp3"]) ∧
    LoadLibrary c10env c10fs = ([], none) := by
  decide

/-- C10 (amended): the persisted path list is the `{"files": [string, ...]}`
object at the per-user current-name location.  `SaveLibrary` always writes
the current name and never touches the legacy entry.  `LoadLibrary` falls
back to reading the legacy-name file only when the current-name read fails
with an error other than not-exist; a missing current-name file yields the
empty list with nil error without consulting the legacy file. -/
theorem storage_current_legacy_behaviour (env : StorageEnv) (fs : StorageFS)
    (files : List String) :
    alLookup (GetConfigPath env) (SaveLibrary env fs files)
      = some (.content (some files)) ∧
    alLookup (getLegacyConfigPath env) (SaveLibrary env fs files)
      = alLookup (getLegacyConfigPath env) fs ∧
    LoadLibrary env fs =
      (match readConf fs (GetConfigPath env) with
       | .content (some l) => (l, none)
       | .content none => ([], some "invalid library json")
       | .absent => ([], none)
       | .unreadable msg =>
         match readConf fs (getLegacyConfigPath env) with
         | .content (some l) => (l, none)
         | .content none => ([], some "invalid library json")
         | _ => ([], some msg)) := by
  refine ⟨alLookup_insert_self _ _ _,
    alLookup_insert_ne (fun h => configPath_ne_legacy env h.symm) _ _, ?_⟩
  rw [LoadLibrary]
  cases h1 : readConf fs (GetConfigPath env) with
  | content c => cases c <;> rfl
  | absent => rfl
  | unreadable msg =>
    dsimp only
    rw [if_pos (fun h => configPath_ne_legacy env h.symm)]
    cases h2 : readConf fs (getLegacyConfigPath env) with
    | content c => cases c <;> rfl
    | absent => rfl
    | unreadable m2 => rfl

end Kitty
